import Mathlib

/-!
Verification development for the cnp-align repository.

The Python source is shallowly embedded: pandas data frames of segment rows
become lists of records, Python ints and (exact small) floats become `ℚ`,
dictionaries become association lists or functions, and fallible code
(Python exceptions such as `ZeroDivisionError`) returns `Except`/`Option`.
The only third-party call, Biopython's `pairwise2.align.globalds`, is not part
of this repository; it is modelled from the spec's description of the
Alignment Engine (a global pairwise alignment maximising substitution score
plus affine gap penalties, penalties being added to the score).
-/

set_option allowUnsafeReducibility true in
attribute [semireducible] Rat.add Rat.mul Rat.sub Rat.inv Rat.div Rat.neg

/-! ### utils.get_chrom_order -/

/-- Embedding of `utils.get_chrom_order`: the canonical ordered list
`[chr01p, chr01q, …, chr22q]` of autosomal chromosome arms.  The source tests
`len(str(i)) == 1` to decide whether to pad with a zero. -/
def get_chrom_order : List String :=
  (List.range' 1 22).flatMap (fun i =>
    if (toString i).length = 1 then
      ["chr0" ++ toString i ++ "p", "chr0" ++ toString i ++ "q"]
    else
      ["chr" ++ toString i ++ "p", "chr" ++ toString i ++ "q"])

/-! ### utils.autoresolve -/

/-- One row of a Clonality-style segment table (`ID`, `chrom`, `loc.start`,
`loc.end`, `num.mark`, `seg.mean`, `state`, `fill`).  Coordinates are `ℚ`
because the source stores Python numbers that pass through float division and
are only cast back to int by the final `astype`; `num.mark`/`seg.mean`/`fill`
are optional (`None`/absent column in the source). -/
structure Seg where
  id : String
  chrom : String
  locStart : ℚ
  locEnd : ℚ
  numMark : Option ℚ
  segMean : Option ℚ
  state : String
  fill : Option String
deriving DecidableEq, Repr

/-- Computable floor of a rational (`Int.fdiv` of numerator by denominator);
agrees with `Int.floor` (proved below). -/
def ratFloor (q : ℚ) : ℤ := Int.fdiv q.num (q.den : ℤ)

/-- Python's modulo on (exact) floats: `a % b = a - b * floor(a / b)`. -/
def pymod (a b : ℚ) : ℚ := a - b * (ratFloor (a / b) : ℚ)

/-- Python's `int()` cast, truncation toward zero, as used by
`df.astype({"loc.start": int, "loc.end": int})`. -/
def truncQ (q : ℚ) : ℚ := ((q.num.tdiv (q.den : ℤ) : ℤ) : ℚ)

/-- The `n_bins == 1` fill entry of `utils.autoresolve` (state of the
preceding segment, marker `previous`). -/
def fillPrevious (bin_size : ℚ) (prev cur : Seg) : Seg :=
  { id := cur.id, chrom := cur.chrom,
    locStart := prev.locEnd + bin_size,
    locEnd := cur.locStart - bin_size,
    numMark := none, segMean := none,
    state := prev.state, fill := some "previous" }

/-- The first-half fill entry of `utils.autoresolve` (state of the preceding
segment, marker `first_half`). -/
def fillFirstHalf (bin_size first : ℚ) (prev cur : Seg) : Seg :=
  { id := cur.id, chrom := cur.chrom,
    locStart := prev.locEnd + bin_size,
    locEnd := prev.locEnd + first * bin_size,
    numMark := none, segMean := none,
    state := prev.state, fill := some "first_half" }

/-- The second-half fill entry of `utils.autoresolve` (state of the following
segment, marker `second_half`). -/
def fillSecondHalf (bin_size first : ℚ) (prev cur : Seg) : Seg :=
  { id := cur.id, chrom := cur.chrom,
    locStart := prev.locEnd + first * bin_size + bin_size,
    locEnd := cur.locStart - bin_size,
    numMark := none, segMean := none,
    state := cur.state, fill := some "second_half" }

/-- The per-chromosome segment walk of `utils.autoresolve`: `prev` is the
previous record (index `i[0]-1`, possibly already extended by the
`n_bins == 0` branch), the list is the remaining records.  Returns the
(possibly modified) original records and the list of new fill entries, in
the order the source appends them. -/
def autoresolveWalk (bin_size : ℚ) (prev : Seg) : List Seg → List Seg × List Seg
  | [] => ([prev], [])
  | cur :: rest =>
    if cur.locStart = prev.locEnd + bin_size then
      -- no gap between the segments
      let r := autoresolveWalk bin_size cur rest
      (prev :: r.1, r.2)
    else
      let size := cur.locStart - prev.locEnd
      let n_bins := (size - 2 * bin_size) / bin_size
      if n_bins = 0 then
        -- gap of exactly 2 bins: extend the previous record by one bin
        let prev' := { prev with locEnd := prev.locEnd + bin_size,
                                 fill := some "modified" }
        let r := autoresolveWalk bin_size cur rest
        (prev' :: r.1, r.2)
      else if n_bins = 1 then
        -- fill in as last observed
        let r := autoresolveWalk bin_size cur rest
        (prev :: r.1, fillPrevious bin_size prev cur :: r.2)
      else
        -- uneven number of bins: fill in as left
        let first := if pymod n_bins 2 ≠ 0 then (n_bins + 1) / 2 else n_bins / 2
        let r := autoresolveWalk bin_size cur rest
        (prev :: r.1,
         fillFirstHalf bin_size first prev cur ::
           fillSecondHalf bin_size first prev cur :: r.2)

/-- One chromosome of `utils.autoresolve`: walk the records; the new entries
are appended after the originals (`cnvs.extend(new_entries)`). -/
def autoresolveChrom (bin_size : ℚ) : List Seg → List Seg
  | [] => []
  | c :: rest =>
    let r := autoresolveWalk bin_size c rest
    r.1 ++ r.2

/-- Embedding of `utils.autoresolve`: per chromosome of the canonical order,
take the rows of that chromosome (in row order), fill gaps, concatenate, and
cast the coordinates back to int (`astype`, truncation).  Rows whose `chrom`
is not in the canonical order are dropped by the source's loop. -/
def autoresolve (df : List Seg) (bin_size : ℚ) : List Seg :=
  ((get_chrom_order.map (fun chrom =>
      autoresolveChrom bin_size (df.filter (fun s => s.chrom = chrom)))).flatten).map
    (fun s => { s with locStart := truncQ s.locStart, locEnd := truncQ s.locEnd })

/-! ### Alignment engine (align.py, Biopython pairwise2 modelled from the spec) -/

/-- Modelled from the spec: a column of a global pairwise alignment as produced
by Biopython's `pairwise2.align.globalds` (not part of this repository).
`both` aligns one symbol of each sequence, `gapA` puts a gap marker in the
first aligned sequence, `gapB` in the second. -/
inductive AStep where
  | both : AStep
  | gapA : AStep
  | gapB : AStep
deriving DecidableEq, Repr

/-- A step list is a global alignment of sequences of lengths `na` and `nb`
when it consumes each exactly: `both`/`gapB` consume a symbol of the first
sequence, `both`/`gapA` one of the second. -/
def validSteps (st : List AStep) (na nb : ℕ) : Bool :=
  (st.count AStep.both + st.count AStep.gapB = na) ∧
    (st.count AStep.both + st.count AStep.gapA = nb)

/-- The first aligned sequence (`seqA`, with `-` gap markers) reconstructed
from an alignment's steps. -/
def alignedSeqA (st : List AStep) (xs : List Char) : List Char :=
  match st with
  | [] => []
  | AStep.both :: r => xs.headD '?' :: alignedSeqA r xs.tail
  | AStep.gapB :: r => xs.headD '?' :: alignedSeqA r xs.tail
  | AStep.gapA :: r => '-' :: alignedSeqA r xs

/-- The second aligned sequence (`seqB`) reconstructed from an alignment's
steps. -/
def alignedSeqB (st : List AStep) (ys : List Char) : List Char :=
  match st with
  | [] => []
  | AStep.both :: r => ys.headD '?' :: alignedSeqB r ys.tail
  | AStep.gapA :: r => ys.headD '?' :: alignedSeqB r ys.tail
  | AStep.gapB :: r => '-' :: alignedSeqB r ys

/-- Modelled from the spec: the score of a global alignment — substitution
score for aligned pairs plus gap penalties, affine as in `pairwise2`
(a gap block of length L contributes `gapOpen + (L-1)*gapExtend`, penalties
being added to the score, so penalising only when negative).  `last` is the
preceding column, used to decide between opening and extending. -/
def alignScoreAux (M : Char → Char → ℚ) (gapOpen gapExtend : ℚ)
    (last : Option AStep) : List AStep → List Char → List Char → ℚ
  | [], _, _ => 0
  | AStep.both :: r, xs, ys =>
    M (xs.headD '?') (ys.headD '?') +
      alignScoreAux M gapOpen gapExtend (some AStep.both) r xs.tail ys.tail
  | AStep.gapA :: r, xs, ys =>
    (if last = some AStep.gapA then gapExtend else gapOpen) +
      alignScoreAux M gapOpen gapExtend (some AStep.gapA) r xs ys.tail
  | AStep.gapB :: r, xs, ys =>
    (if last = some AStep.gapB then gapExtend else gapOpen) +
      alignScoreAux M gapOpen gapExtend (some AStep.gapB) r xs.tail ys

/-- Score of a global alignment of `xs` and `ys` described by steps `st`. -/
def alignScore (M : Char → Char → ℚ) (gapOpen gapExtend : ℚ)
    (st : List AStep) (xs ys : List Char) : ℚ :=
  alignScoreAux M gapOpen gapExtend none st xs ys

/-- All step lists of exactly length `n`. -/
def stepListsOfLen : ℕ → List (List AStep)
  | 0 => [[]]
  | n + 1 =>
    (stepListsOfLen n).flatMap (fun st =>
      [AStep.both :: st, AStep.gapA :: st, AStep.gapB :: st])

/-- All step lists of length at most `n` (every valid alignment of sequences
of lengths `na`, `nb` appears in `allStepLists (na + nb)`, proved below). -/
def allStepLists (n : ℕ) : List (List AStep) :=
  ((List.range (n + 1)).map stepListsOfLen).flatten

/-- The default gap-opening penalty of `Alignment.align`
(`gap_open=10000` in the source). -/
def default_gap_open : ℚ := 10000

/-- The default gap-extension penalty of `Alignment.align`
(`gap_extend=10000` in the source). -/
def default_gap_extend : ℚ := 10000

/-- The per-arm record built by `Alignment.align` (align.py lines 79–85). -/
structure ArmAlignment where
  seq1 : List Char
  seq2 : List Char
  score : ℚ
  adjusted_score : ℚ
  seq1_gaps : ℕ
  seq2_gaps : ℕ
deriving DecidableEq, Repr

/-- Embedding of align.py lines 79–85: the record `Alignment.align` stores for
one arm, given the alignment (`result[0]`) returned by the engine for the two
arm sequences.  `adjusted_score` is `score / len(seqA)` and the gap counts are
`seqA.count('-')` / `seqB.count('-')`. -/
def mkArmAlignment (M : Char → Char → ℚ) (gapOpen gapExtend : ℚ)
    (xs ys : List Char) (st : List AStep) : ArmAlignment :=
  let sA := alignedSeqA st xs
  let sB := alignedSeqB st ys
  let sc := alignScore M gapOpen gapExtend st xs ys
  { seq1 := sA, seq2 := sB, score := sc,
    adjusted_score := sc / (sA.length : ℚ),
    seq1_gaps := sA.count '-', seq2_gaps := sB.count '-' }

/-! ### Null-model calibration (align.py lines 86–93) -/

/-- Embedding of align.py lines 86–93: attach `match_proba`/`mismatch_proba`
to an arm's record.  `null_scores is None` skips the computation (`Except.ok
none`); otherwise `bigger` counts null scores `>=` the adjusted score,
`smaller` those `<` it, and both are divided by `len(null_scores[arm])` —
a Python `ZeroDivisionError` (`Except.error`) when that list is empty, since
the source guards only against `null_scores` being `None`. -/
def attach_probabilities (null_scores : Option (List ℚ)) (adjusted_score : ℚ) :
    Except String (Option (ℚ × ℚ)) :=
  match null_scores with
  | none => Except.ok none
  | some ns =>
    if ns.length = 0 then
      Except.error "ZeroDivisionError"
    else
      let bigger := (ns.filter (fun i => adjusted_score ≤ i)).length
      let smaller := (ns.filter (fun i => i < adjusted_score)).length
      Except.ok (some ((bigger : ℚ) / (ns.length : ℚ),
                       (smaller : ℚ) / (ns.length : ℚ)))

/-! ### Substitution-matrix builder (blosum.py) -/

/-- The number of ordered pairs of distinct sample indices whose states at one
position are `a` and `b`: the inner double loop of `blosum` over
`pattern_dict[pos]` with `sample1 != sample2`. -/
def occPairs (pos : List Char) (a b : Char) : ℕ :=
  ∑ i ∈ Finset.range pos.length, ∑ j ∈ Finset.range pos.length,
    if i ≠ j ∧ pos.getD i '?' = a ∧ pos.getD j '?' = b then 1 else 0

/-- The `pair_counts` dictionary of `blosum`: Laplace `+1` for every pair,
plus one count per ordered pair of distinct samples sharing a position.
States are single characters, so the source's string keys `i+j` are
faithfully the ordered pair `(a, b)`. -/
def pair_counts (positions : List (List Char)) (a b : Char) : ℕ :=
  1 + (positions.map (fun pos => occPairs pos a b)).sum

/-- The observation total `n = ((w*d) * (d-1)) / 2` of `blosum`; `d` is the
sample count of the source's leaked loop variable (the last position) and `w`
the number of positions. -/
def blosum_n (positions : List (List Char)) : ℚ :=
  let d : ℚ := ((positions.getLastD []).length : ℚ)
  let w : ℚ := (positions.length : ℚ)
  ((w * d) * (d - 1)) / 2

/-- `pair_probabilities` of `blosum`: observed pair counts over `n`. -/
def pair_probabilities (positions : List (List Char)) (a b : Char) : ℚ :=
  (pair_counts positions a b : ℚ) / blosum_n positions

/-- `cnv_probabilities` of `blosum`: marginal probability of one state, from
the pair counts over the `states × states` keys (`j.count(i) == 2` means both
key characters equal `i`, `== 1` exactly one), halved for double counting. -/
def cnv_probabilities (states : List Char) (positions : List (List Char))
    (i : Char) : ℚ :=
  let numer : ℚ :=
    (states.map (fun a =>
      (states.map (fun b =>
        if a = i ∧ b = i then (pair_counts positions a b : ℚ)
        else if a = i ∨ b = i then (pair_counts positions a b : ℚ) / 2
        else 0)).sum)).sum
  (numer / blosum_n positions) / 2

/-- `exp_pair_probabilities` of `blosum`: expected pair probability under
independence, doubled off the diagonal. -/
def exp_pair_probabilities (states : List Char) (positions : List (List Char))
    (a b : Char) : ℚ :=
  if a = b then
    cnv_probabilities states positions a * cnv_probabilities states positions b
  else
    2 * cnv_probabilities states positions a * cnv_probabilities states positions b

/-- Embedding of `blosum` (blosum.py lines 64–121) up to the final transform:
the source's matrix entry is `2 * log2(observed / expected)`; the
transcendental `2*log2` is abstracted as the parameter `g : ℚ → ℝ` applied to
the observed/expected ratio, so the development stays executable and every
theorem about `blosum_matrix g` covers the source's instantiation. -/
def blosum_matrix (g : ℚ → ℝ) (states : List Char)
    (positions : List (List Char)) (a b : Char) : ℝ :=
  g (pair_probabilities positions a b / exp_pair_probabilities states positions a b)

/-! ### Segment model (format.py, Arm.__init__) -/

/-- One row of the per-arm interval table consumed by `Arm.__init__` in
`clonality` format (`loc.start`, `loc.end`, `state`). -/
structure SegInterval where
  locStart : ℤ
  locEnd : ℤ
  state : String
deriving DecidableEq, Repr

/-- A `Bin` object of format.py (clonality variant): chromosome arm, start,
end, and single-character state (`j['state'][0]`). -/
structure BinRec where
  chrom : String
  start : ℤ
  stop : ℤ
  state : Char
deriving DecidableEq, Repr

/-- Python's `range(start, stop, step)` for a positive step. -/
def pyRange (start stop step : ℤ) : List ℤ :=
  (List.range ((stop - start + step - 1).toNat / step.toNat)).map
    (fun k => start + step * (k : ℤ))

/-- The inner interval scan of `Arm.__init__` for one bin position `i`: every
interval `j` with `j['loc.start'] <= i <= j['loc.end']` appends a `Bin`
carrying `j['state'][0]` (the scan does not stop at the first match);
`assigned` records whether any interval matched. -/
def scanIntervals (chrom : String) (bin_size : ℤ) (i : ℤ) :
    List SegInterval → List BinRec × Bool
  | [] => ([], false)
  | j :: rest =>
    let r := scanIntervals chrom bin_size i rest
    if j.locStart ≤ i ∧ i ≤ j.locEnd then
      (⟨chrom, i, i + bin_size, (j.state.toList.headD '?')⟩ :: r.1, true)
    else
      (r.1, r.2)

/-- Embedding of `Arm.__init__` (clonality format): for every bin position in
`range(chrom_start, chrom_end, bin_size)` scan all intervals; positions with
no overlapping interval are collected (`chrom+'_'+str(i)`) and only reported
as a warning.  Returns the bins and the unassigned-position names. -/
def armInit (chrom : String) (bin_size chromStart chromEnd : ℤ)
    (cnvs : List SegInterval) : List BinRec × List String :=
  ((pyRange chromStart chromEnd bin_size).map (fun i =>
      let r := scanIntervals chrom bin_size i cnvs
      (r.1, if r.2 then [] else [chrom ++ "_" ++ toString i]))).foldr
    (fun p acc => (p.1 ++ acc.1, p.2 ++ acc.2)) ([], [])

/-! ### CGHcall.check_proba_similarity -/

/-- Embedding of `CGHcall.check_proba_similarity` (lines 317–320): both
`dict1` and `dict2` are comprehensions over `dictionary1` (the source never
reads `dictionary2`), keeping the keys in `proba_cols`; the result compares
the two value lists. -/
def check_proba_similarity (proba_cols : List String)
    (dictionary1 dictionary2 : List (String × ℚ)) : Bool :=
  let dict1 := dictionary1.filter (fun kv => proba_cols.contains kv.1)
  let dict2 := dictionary1.filter (fun kv => proba_cols.contains kv.1)
  dict1.map Prod.snd == dict2.map Prod.snd

/-! ### Example inputs used by counterexamples and witnesses -/

/-- Shorthand for an original table row (carrying observed auxiliary
statistics) of the running examples. -/
def mkSegRow (c : String) (s e : ℚ) (st : String) : Seg :=
  { id := "S", chrom := c, locStart := s, locEnd := e,
    numMark := some 1, segMean := some 0, state := st, fill := none }

/-- Table with a `n_bins == 4` gap on `chr01p` between an `N` and a `G`
segment (bin size 100000). -/
def gapFourTable : List Seg :=
  [mkSegRow "chr01p" 0 0 "N", mkSegRow "chr01p" 600000 600000 "G"]

/-- Table with a `n_bins == 1` gap on `chr01p` (bin size 100000). -/
def gapOneTable : List Seg :=
  [mkSegRow "chr01p" 0 0 "N", mkSegRow "chr01p" 300000 300000 "G"]

/-- A gap-free table on `chr01p` (bin size 100000). -/
def gapFreeTable : List Seg :=
  [mkSegRow "chr01p" 0 100000 "N", mkSegRow "chr01p" 200000 300000 "G"]

/-- Number of bin positions a segment row spans: bin starts are `bin_size`
apart and the overlap test of `Arm.__init__` is inclusive on both ends, so a
row covers `(loc.end - loc.start) / bin_size + 1` positions. -/
def binSpan (bin_size : ℚ) (s : Seg) : ℚ :=
  (s.locEnd - s.locStart) / bin_size + 1

/-- Identity substitution matrix used in examples: 1 on the diagonal. -/
def idMatrix : Char → Char → ℚ := fun a b => if a = b then 1 else 0

/-- Adversarial substitution matrix used in examples: 0 on the diagonal and a
huge off-diagonal reward. -/
def offMatrix : Char → Char → ℚ := fun a b => if a = b then 0 else 1000000

/-- The claimed size of the first half of a gap of `n_bins = k` missing-bin
units: `ceil(k/2)` when `k` is odd, `k/2` otherwise (as the source computes
`first`). -/
def firstHalfBins (k : ℕ) : ℚ :=
  if k % 2 = 1 then ((k : ℚ) + 1) / 2 else (k : ℚ) / 2

/-- A segment list is gap-free (for `autoresolve`) when every consecutive row
pair satisfies `next.loc.start == prev.loc.end + bin_size`. -/
def gapFreeB (bin_size : ℚ) : List Seg → Bool
  | [] => true
  | [_] => true
  | a :: b :: r =>
    decide (b.locStart = a.locEnd + bin_size) && gapFreeB bin_size (b :: r)

/-! ### Numeric helper lemmas -/

lemma ratFloor_eq (q : ℚ) : ratFloor q = ⌊q⌋ := by
  rw [Rat.floor_def, ratFloor, Int.fdiv_eq_ediv _ (by positivity)]

lemma pymod_natCast_two (k : ℕ) : pymod (k : ℚ) 2 = ((k % 2 : ℕ) : ℚ) := by
  have h2 : ⌊((k : ℚ) / 2)⌋ = (k : ℤ) / 2 := by
    have h := Rat.floor_intCast_div_natCast (k : ℤ) 2
    push_cast at h
    exact h
  calc pymod (k : ℚ) 2
      = (k : ℚ) - 2 * (((k : ℤ) / 2 : ℤ) : ℚ) := by rw [pymod, ratFloor_eq, h2]
    _ = (((k : ℤ) - 2 * ((k : ℤ) / 2) : ℤ) : ℚ) := by push_cast; ring
    _ = (((k : ℤ) % 2 : ℤ) : ℚ) := by rw [← Int.emod_def]
    _ = ((k % 2 : ℕ) : ℚ) := by norm_cast

/-! ### C1: gap filling of the Gap Autoresolver -/

/-- **C1** (amended).  For a detected gap between adjacent segments of the
same arm (`cur.locStart ≠ prev.locEnd + bin_size`): when `n_bins = 1` the walk
inserts exactly one entry with the preceding segment's state and fill marker
`previous`; when `n_bins = k > 1` it inserts exactly two contiguous entries,
the first half of `ceil(k/2)` bins (odd `k`) or `k/2` bins (even `k`) with the
preceding state and marker `first_half`, the second half with the following
state and marker `second_half` — the second half spanning `k + 1 - first`
bins (not `k - first`): for `n_bins = 4` the halves span 2 and 3 bins. -/
theorem C1_autoresolve_gap_fill (bin_size : ℚ) (prev cur : Seg) (rest : List Seg)
    (hb : 0 < bin_size)
    (hgap : ¬ cur.locStart = prev.locEnd + bin_size) :
    ((cur.locStart - prev.locEnd - 2 * bin_size) / bin_size = 1 →
      autoresolveWalk bin_size prev (cur :: rest) =
        (prev :: (autoresolveWalk bin_size cur rest).1,
         fillPrevious bin_size prev cur ::
           (autoresolveWalk bin_size cur rest).2) ∧
      (fillPrevious bin_size prev cur).state = prev.state ∧
      (fillPrevious bin_size prev cur).fill = some "previous") ∧
    (∀ k : ℕ, 1 < k →
      (cur.locStart - prev.locEnd - 2 * bin_size) / bin_size = (k : ℚ) →
      autoresolveWalk bin_size prev (cur :: rest) =
        (prev :: (autoresolveWalk bin_size cur rest).1,
         fillFirstHalf bin_size (firstHalfBins k) prev cur ::
           fillSecondHalf bin_size (firstHalfBins k) prev cur ::
             (autoresolveWalk bin_size cur rest).2) ∧
      (fillFirstHalf bin_size (firstHalfBins k) prev cur).state = prev.state ∧
      (fillFirstHalf bin_size (firstHalfBins k) prev cur).fill = some "first_half" ∧
      (fillSecondHalf bin_size (firstHalfBins k) prev cur).state = cur.state ∧
      (fillSecondHalf bin_size (firstHalfBins k) prev cur).fill = some "second_half" ∧
      (fillSecondHalf bin_size (firstHalfBins k) prev cur).locStart =
        (fillFirstHalf bin_size (firstHalfBins k) prev cur).locEnd + bin_size ∧
      binSpan bin_size (fillFirstHalf bin_size (firstHalfBins k) prev cur) =
        firstHalfBins k ∧
      binSpan bin_size (fillSecondHalf bin_size (firstHalfBins k) prev cur) =
        (k : ℚ) + 1 - firstHalfBins k) := by
  constructor
  · intro hnb
    refine ⟨?_, rfl, rfl⟩
    rw [autoresolveWalk, if_neg hgap, if_neg (by rw [hnb]; norm_num), if_pos hnb]
  · intro k hk hnb
    have hne0 : ¬ (cur.locStart - prev.locEnd - 2 * bin_size) / bin_size = 0 := by
      rw [hnb]
      exact_mod_cast (by omega : ¬ k = 0)
    have hne1 : ¬ (cur.locStart - prev.locEnd - 2 * bin_size) / bin_size = 1 := by
      rw [hnb]
      exact_mod_cast (by omega : ¬ k = 1)
    have hcur : cur.locStart = prev.locEnd + ((k : ℚ) + 2) * bin_size := by
      have := (div_eq_iff hb.ne').mp hnb
      linarith
    have hfirst :
        (if pymod ((cur.locStart - prev.locEnd - 2 * bin_size) / bin_size) 2 ≠ 0
          then ((cur.locStart - prev.locEnd - 2 * bin_size) / bin_size + 1) / 2
          else (cur.locStart - prev.locEnd - 2 * bin_size) / bin_size / 2) =
          firstHalfBins k := by
      rw [hnb, pymod_natCast_two, firstHalfBins]
      rcases Nat.mod_two_eq_zero_or_one k with h | h <;> simp [h]
    refine ⟨?_, rfl, rfl, rfl, rfl, by simp [fillFirstHalf, fillSecondHalf], ?_, ?_⟩
    · rw [autoresolveWalk, if_neg hgap, if_neg hne0, if_neg hne1, hfirst]
    · simp only [binSpan, fillFirstHalf]
      field_simp
    · simp only [binSpan, fillSecondHalf, hcur]
      field_simp
      ring

/-- **C1**, counterexample to the claim as stated: on the table with a
`n_bins == 4` gap between an `N` and a `G` segment (bin size 100000) the
autoresolver's two fill entries span 2 and 3 bin positions — not two 2-bin
entries as claimed. -/
theorem C1_counterexample :
    autoresolve gapFourTable 100000 =
      [mkSegRow "chr01p" 0 0 "N", mkSegRow "chr01p" 600000 600000 "G",
       fillFirstHalf 100000 2 (mkSegRow "chr01p" 0 0 "N")
         (mkSegRow "chr01p" 600000 600000 "G"),
       fillSecondHalf 100000 2 (mkSegRow "chr01p" 0 0 "N")
         (mkSegRow "chr01p" 600000 600000 "G")] ∧
    ((600000 : ℚ) - 0 - 2 * 100000) / 100000 = 4 ∧
    binSpan 100000
      (fillFirstHalf 100000 2 (mkSegRow "chr01p" 0 0 "N")
        (mkSegRow "chr01p" 600000 600000 "G")) = 2 ∧
    binSpan 100000
      (fillSecondHalf 100000 2 (mkSegRow "chr01p" 0 0 "N")
        (mkSegRow "chr01p" 600000 600000 "G")) = 3 ∧
    ¬ (3 : ℚ) = 2 := by
  decide

/-- **C1**, witness: the amended theorem applied to the concrete `n_bins = 4`
gap of `gapFourTable`. -/
theorem C1_witness :
    (0 < (100000 : ℚ)) ∧
    ¬ (mkSegRow "chr01p" 600000 600000 "G").locStart =
        (mkSegRow "chr01p" 0 0 "N").locEnd + 100000 ∧
    ((mkSegRow "chr01p" 600000 600000 "G").locStart -
        (mkSegRow "chr01p" 0 0 "N").locEnd - 2 * 100000) / 100000 = ((4 : ℕ) : ℚ) ∧
    (autoresolveWalk 100000 (mkSegRow "chr01p" 0 0 "N")
        [mkSegRow "chr01p" 600000 600000 "G"] =
      (mkSegRow "chr01p" 0 0 "N" ::
         (autoresolveWalk 100000 (mkSegRow "chr01p" 600000 600000 "G") []).1,
       fillFirstHalf 100000 (firstHalfBins 4) (mkSegRow "chr01p" 0 0 "N")
           (mkSegRow "chr01p" 600000 600000 "G") ::
         fillSecondHalf 100000 (firstHalfBins 4) (mkSegRow "chr01p" 0 0 "N")
             (mkSegRow "chr01p" 600000 600000 "G") ::
           (autoresolveWalk 100000 (mkSegRow "chr01p" 600000 600000 "G") []).2) ∧
      (fillFirstHalf 100000 (firstHalfBins 4) (mkSegRow "chr01p" 0 0 "N")
          (mkSegRow "chr01p" 600000 600000 "G")).state =
        (mkSegRow "chr01p" 0 0 "N").state ∧
      (fillFirstHalf 100000 (firstHalfBins 4) (mkSegRow "chr01p" 0 0 "N")
          (mkSegRow "chr01p" 600000 600000 "G")).fill = some "first_half" ∧
      (fillSecondHalf 100000 (firstHalfBins 4) (mkSegRow "chr01p" 0 0 "N")
          (mkSegRow "chr01p" 600000 600000 "G")).state =
        (mkSegRow "chr01p" 600000 600000 "G").state ∧
      (fillSecondHalf 100000 (firstHalfBins 4) (mkSegRow "chr01p" 0 0 "N")
          (mkSegRow "chr01p" 600000 600000 "G")).fill = some "second_half" ∧
      (fillSecondHalf 100000 (firstHalfBins 4) (mkSegRow "chr01p" 0 0 "N")
          (mkSegRow "chr01p" 600000 600000 "G")).locStart =
        (fillFirstHalf 100000 (firstHalfBins 4) (mkSegRow "chr01p" 0 0 "N")
            (mkSegRow "chr01p" 600000 600000 "G")).locEnd + 100000 ∧
      binSpan 100000
          (fillFirstHalf 100000 (firstHalfBins 4) (mkSegRow "chr01p" 0 0 "N")
            (mkSegRow "chr01p" 600000 600000 "G")) = firstHalfBins 4 ∧
      binSpan 100000
          (fillSecondHalf 100000 (firstHalfBins 4) (mkSegRow "chr01p" 0 0 "N")
            (mkSegRow "chr01p" 600000 600000 "G")) = ((4 : ℕ) : ℚ) + 1 - firstHalfBins 4) :=
  ⟨by norm_num, by decide, by decide,
   (C1_autoresolve_gap_fill 100000 (mkSegRow "chr01p" 0 0 "N")
       (mkSegRow "chr01p" 600000 600000 "G") []
       (by norm_num) (by decide)).2 4 (by norm_num) (by decide)⟩

/-! ### C2: (non-)idempotence of the Gap Autoresolver -/

lemma autoresolveWalk_of_gapFree (bin_size : ℚ) :
    ∀ (rest : List Seg) (prev : Seg),
      gapFreeB bin_size (prev :: rest) = true →
      autoresolveWalk bin_size prev rest = (prev :: rest, []) := by
  intro rest
  induction rest with
  | nil => intro prev _; rfl
  | cons cur r ih =>
    intro prev h
    rw [gapFreeB, Bool.and_eq_true, decide_eq_true_eq] at h
    rw [autoresolveWalk, if_pos h.1, ih cur h.2]

lemma autoresolveChrom_of_gapFree (bin_size : ℚ) (l : List Seg)
    (h : gapFreeB bin_size l = true) :
    autoresolveChrom bin_size l = l := by
  cases l with
  | nil => rfl
  | cons c rest =>
    rw [autoresolveChrom]
    rw [autoresolveWalk_of_gapFree bin_size rest c h]
    simp

lemma truncQ_of_den_one {q : ℚ} (h : q.den = 1) : truncQ q = q := by
  have hq : (q.num : ℚ) = q := (Rat.den_eq_one_iff q).mp h
  rw [truncQ, h]
  simpa [Int.tdiv_one] using hq

/-- **C2** (amended).  `autoresolve` is the identity — hence idempotent — on
tables whose rows are grouped in the canonical chromosome order, are gap-free
within each chromosome (each consecutive row starts one bin after the
previous row's end), and have integer coordinates.  On gapped tables it is
not idempotent, because fill entries are appended after the original rows
out of positional order (see the counterexample). -/
theorem C2_autoresolve_identity_on_resolved (df : List Seg) (bin_size : ℚ)
    (hgroup : df =
      (get_chrom_order.map (fun c => df.filter (fun s => s.chrom = c))).flatten)
    (hfree : ∀ c ∈ get_chrom_order,
      gapFreeB bin_size (df.filter (fun s => s.chrom = c)) = true)
    (hden : ∀ s ∈ df, s.locStart.den = 1 ∧ s.locEnd.den = 1) :
    autoresolve df bin_size = df ∧
    autoresolve (autoresolve df bin_size) bin_size = autoresolve df bin_size := by
  have h1 : autoresolve df bin_size = df := by
    rw [autoresolve]
    have hmap : get_chrom_order.map (fun chrom =>
        autoresolveChrom bin_size (df.filter (fun s => s.chrom = chrom))) =
        get_chrom_order.map (fun chrom => df.filter (fun s => s.chrom = chrom)) := by
      apply List.map_congr_left
      intro c hc
      exact autoresolveChrom_of_gapFree bin_size _ (hfree c hc)
    rw [hmap, ← hgroup]
    have : ∀ s ∈ df,
        ({ s with locStart := truncQ s.locStart, locEnd := truncQ s.locEnd } : Seg) = s := by
      intro s hs
      have h := hden s hs
      simp [truncQ_of_den_one h.1, truncQ_of_den_one h.2]
    calc df.map (fun s =>
            ({ s with locStart := truncQ s.locStart, locEnd := truncQ s.locEnd } : Seg))
        = df.map id := List.map_congr_left this
      _ = df := List.map_id df
  exact ⟨h1, by rw [h1]; exact h1⟩

/-- **C2**, counterexample to idempotence as claimed: on a table with one
`n_bins == 1` gap, the first run appends the fill entry after the original
rows, so the second run re-detects the original gap (and a spurious negative
gap against the out-of-order fill row) and the two results differ. -/
theorem C2_counterexample :
    ¬ autoresolve (autoresolve gapOneTable 100000) 100000 =
        autoresolve gapOneTable 100000 := by
  decide

/-- **C2**, witness: the amended identity/idempotence theorem applied to a
concrete canonical-order gap-free table. -/
theorem C2_witness :
    (gapFreeTable =
      (get_chrom_order.map (fun c =>
        gapFreeTable.filter (fun s => s.chrom = c))).flatten) ∧
    (∀ c ∈ get_chrom_order,
      gapFreeB 100000 (gapFreeTable.filter (fun s => s.chrom = c)) = true) ∧
    (∀ s ∈ gapFreeTable, s.locStart.den = 1 ∧ s.locEnd.den = 1) ∧
    (autoresolve gapFreeTable 100000 = gapFreeTable ∧
     autoresolve (autoresolve gapFreeTable 100000) 100000 =
       autoresolve gapFreeTable 100000) :=
  ⟨by decide, by decide, by decide,
   C2_autoresolve_identity_on_resolved gapFreeTable 100000
     (by decide) (by decide) (by decide)⟩

/-! ### C3 and C7: alignment records, scores and default gap penalties -/

lemma mem_stepListsOfLen : ∀ st : List AStep, st ∈ stepListsOfLen st.length := by
  intro st
  induction st with
  | nil => simp [stepListsOfLen]
  | cons a r ih =>
    rw [List.length_cons, stepListsOfLen]
    rw [List.mem_flatMap]
    refine ⟨r, ih, ?_⟩
    cases a <;> simp

lemma mem_allStepLists {st : List AStep} {n : ℕ} (h : st.length ≤ n) :
    st ∈ allStepLists n := by
  rw [allStepLists, List.mem_flatten]
  refine ⟨stepListsOfLen st.length, ?_, mem_stepListsOfLen st⟩
  simp only [List.mem_map]
  exact ⟨st.length, by simp [List.mem_range]; omega, rfl⟩

lemma length_eq_counts (st : List AStep) :
    st.length = st.count AStep.both + st.count AStep.gapA + st.count AStep.gapB := by
  induction st with
  | nil => simp
  | cons a r ih =>
    cases a <;> simp [List.count_cons, ih] <;> omega

lemma length_le_of_validSteps {st : List AStep} {na nb : ℕ}
    (h : validSteps st na nb = true) : st.length ≤ na + nb := by
  rw [validSteps] at h
  simp only [Bool.decide_and, Bool.and_eq_true, decide_eq_true_eq] at h
  have := length_eq_counts st
  omega

/-- Bounded optimality over the finite enumeration `allStepLists` implies
optimality over all valid alignments: every valid step list has length at
most `|xs| + |ys|` and hence appears in the enumeration. -/
lemma optimal_of_allStepLists {M : Char → Char → ℚ} {gapOpen gapExtend c : ℚ}
    {xs ys : List Char}
    (h : ((allStepLists (xs.length + ys.length)).all (fun st =>
      !(validSteps st xs.length ys.length) ||
        alignScore M gapOpen gapExtend st xs ys ≤ c)) = true) :
    ∀ st, validSteps st xs.length ys.length = true →
      alignScore M gapOpen gapExtend st xs ys ≤ c := by
  intro st hv
  have hm := mem_allStepLists (length_le_of_validSteps hv)
  have := List.all_eq_true.mp h st hm
  rw [hv] at this
  simpa using this

lemma alignScoreAux_replicate_both (M : Char → Char → ℚ) (gapOpen gapExtend : ℚ) :
    ∀ (xs : List Char) (last : Option AStep),
      alignScoreAux M gapOpen gapExtend last
        (List.replicate xs.length AStep.both) xs xs =
      (xs.map (fun c => M c c)).sum := by
  intro xs
  induction xs with
  | nil => intro last; simp [alignScoreAux]
  | cons c r ih =>
    intro last
    simp only [List.length_cons, List.replicate_succ, alignScoreAux, List.headD,
      List.tail_cons, List.map_cons, List.sum_cons]
    rw [ih]

lemma validSteps_replicate_both (n : ℕ) :
    validSteps (List.replicate n AStep.both) n n = true := by
  simp [validSteps, List.count_replicate]

lemma alignScoreAux_le (M : Char → Char → ℚ) (K gapOpen gapExtend P : ℚ)
    (hM : ∀ a b, M a b ≤ K) (hop : gapOpen ≤ P) (hext : gapExtend ≤ P) :
    ∀ (st : List AStep) (xs ys : List Char) (last : Option AStep),
      alignScoreAux M gapOpen gapExtend last st xs ys ≤
        (st.count AStep.both : ℚ) * K +
          ((st.count AStep.gapA : ℚ) + (st.count AStep.gapB : ℚ)) * P := by
  intro st
  induction st with
  | nil => intro xs ys last; simp [alignScoreAux]
  | cons a r ih =>
    intro xs ys last
    cases a with
    | both =>
      have h1 := hM (xs.head?.getD '?') (ys.head?.getD '?')
      have h2 := ih xs.tail ys.tail (some AStep.both)
      simp only [alignScoreAux]
      simp only [List.count_cons, beq_iff_eq]
      simp
      linarith
    | gapA =>
      have h1 : (if last = some AStep.gapA then gapExtend else gapOpen) ≤ P := by
        split <;> assumption
      have h2 := ih xs ys.tail (some AStep.gapA)
      simp only [alignScoreAux]
      simp only [List.count_cons, beq_iff_eq]
      simp
      linarith
    | gapB =>
      have h1 : (if last = some AStep.gapB then gapExtend else gapOpen) ≤ P := by
        split <;> assumption
      have h2 := ih xs.tail ys (some AStep.gapB)
      simp only [alignScoreAux]
      simp only [List.count_cons, beq_iff_eq]
      simp
      linarith

lemma eq_replicate_of_no_gaps {st : List AStep} {n : ℕ}
    (hval : validSteps st n n = true)
    (hA : st.count AStep.gapA = 0) :
    st = List.replicate n AStep.both := by
  rw [validSteps] at hval
  simp only [Bool.decide_and, Bool.and_eq_true, decide_eq_true_eq] at hval
  have hB : st.count AStep.gapB = 0 := by omega
  have hmem : ∀ a ∈ st, a = AStep.both := by
    intro a ha
    cases a with
    | both => rfl
    | gapA => exact absurd (List.count_pos_iff.mpr ha) (by omega)
    | gapB => exact absurd (List.count_pos_iff.mpr ha) (by omega)
  have hlen : st.length = n := by
    have := length_eq_counts st
    omega
  rw [← hlen]
  exact List.eq_replicate_of_mem hmem

lemma diag_sum_lower_bound (M : Char → Char → ℚ) (K : ℚ)
    (hMge : ∀ a b, -K ≤ M a b) :
    ∀ xs : List Char, -(xs.length : ℚ) * K ≤ (xs.map (fun c => M c c)).sum := by
  intro xs
  induction xs with
  | nil => simp
  | cons c r ih =>
    simp only [List.map_cons, List.sum_cons, List.length_cons]
    have := hMge c c
    push_cast
    push_cast at ih
    linarith

/-- **C3** (amended).  For any per-arm record built by `Alignment.align` from
an optimal global alignment `st` of an arm sequence `xs` against itself:
the recorded `adjusted_score` is the raw score divided by the aligned length
(`len(seqA)`), the recorded gap counts are the number of `-` markers in the
respective aligned sequences, and — provided the substitution values are
bounded by `K` and both gap penalties are negative enough
(`≤ -(2*len(xs)*K + 1)`, e.g. the CLI's `-100000` with log-odds scores) —
the raw score equals the sum over positions of the matrix's diagonal entry
for the symbol at that position. -/
theorem C3_alignment_record (M : Char → Char → ℚ) (K gapOpen gapExtend : ℚ)
    (xs : List Char) (st : List AStep)
    (hval : validSteps st xs.length xs.length = true)
    (hopt : ∀ st', validSteps st' xs.length xs.length = true →
      alignScore M gapOpen gapExtend st' xs xs ≤
        alignScore M gapOpen gapExtend st xs xs)
    (hK : ∀ a b, |M a b| ≤ K)
    (hop : gapOpen ≤ -(2 * (xs.length : ℚ) * K + 1))
    (hext : gapExtend ≤ -(2 * (xs.length : ℚ) * K + 1)) :
    (mkArmAlignment M gapOpen gapExtend xs xs st).adjusted_score =
      (mkArmAlignment M gapOpen gapExtend xs xs st).score /
        ((mkArmAlignment M gapOpen gapExtend xs xs st).seq1.length : ℚ) ∧
    (mkArmAlignment M gapOpen gapExtend xs xs st).seq1_gaps =
      (mkArmAlignment M gapOpen gapExtend xs xs st).seq1.count '-' ∧
    (mkArmAlignment M gapOpen gapExtend xs xs st).seq2_gaps =
      (mkArmAlignment M gapOpen gapExtend xs xs st).seq2.count '-' ∧
    (mkArmAlignment M gapOpen gapExtend xs xs st).score =
      (xs.map (fun c => M c c)).sum := by
  refine ⟨rfl, rfl, rfl, ?_⟩
  set n := xs.length with hn
  have hKnn : 0 ≤ K := le_trans (abs_nonneg (M 'a' 'a')) (hK 'a' 'a')
  have hMle : ∀ a b, M a b ≤ K := fun a b => (abs_le.mp (hK a b)).2
  have hMge : ∀ a b, -K ≤ M a b := fun a b => (abs_le.mp (hK a b)).1
  have hdiag_lb : -(n : ℚ) * K ≤ (xs.map (fun c => M c c)).sum :=
    diag_sum_lower_bound M K hMge xs
  have hlow : (xs.map (fun c => M c c)).sum ≤
      alignScore M gapOpen gapExtend st xs xs := by
    have h := hopt (List.replicate n AStep.both) (validSteps_replicate_both n)
    rwa [alignScore, hn, alignScoreAux_replicate_both] at h
  have hval' := hval
  rw [validSteps] at hval'
  simp only [Bool.decide_and, Bool.and_eq_true, decide_eq_true_eq] at hval'
  rcases Nat.eq_zero_or_pos (st.count AStep.gapA) with hg | hg
  · -- no gaps: the alignment is the identity and scores the diagonal sum
    have := eq_replicate_of_no_gaps hval hg
    show alignScore M gapOpen gapExtend st xs xs = _
    rw [this, alignScore]
    exact alignScoreAux_replicate_both M gapOpen gapExtend xs none
  · -- at least one gap: the score bound contradicts optimality
    exfalso
    have hub := alignScoreAux_le M K gapOpen gapExtend
      (-(2 * (n : ℚ) * K + 1)) hMle hop hext st xs xs none
    have hcountA : st.count AStep.gapA ≤ n := by omega
    have hcountB : st.count AStep.gapB = st.count AStep.gapA := by omega
    have hcountb : st.count AStep.both = n - st.count AStep.gapA := by omega
    set g := st.count AStep.gapA with hgdef
    have hgq : (1 : ℚ) ≤ (g : ℚ) := by exact_mod_cast hg
    have hgle : (g : ℚ) ≤ (n : ℚ) := by exact_mod_cast hcountA
    have hb : ((st.count AStep.both : ℕ) : ℚ) = (n : ℚ) - (g : ℚ) := by
      rw [hcountb]
      push_cast [Nat.cast_sub hcountA]
      ring
    rw [alignScore] at hlow
    rw [hb, hcountB] at hub
    have hnK : 0 ≤ (n : ℚ) * K := by positivity
    nlinarith [hub, hlow, hdiag_lb, hgq, hgle, hKnn, hnK]

/-- **C3**, counterexample to the claim as stated: with substitution matrix
`offMatrix` (diagonal 0, off-diagonal 10^6) and negative gap penalties `-1`,
the optimal global alignment of `NG` against itself is the gapped
`[gapB, both, gapA]` (optimality over all valid alignments follows from the
second conjunct by `optimal_of_allStepLists`), and its recorded raw score
999998 differs from the diagonal sum 0 — so the self-alignment score need
not equal the sum of diagonal entries. -/
theorem C3_counterexample :
    validSteps [AStep.gapB, AStep.both, AStep.gapA] 2 2 = true ∧
    ((allStepLists 4).all (fun st =>
      !(validSteps st 2 2) ||
        alignScore offMatrix (-1) (-1) st ['N', 'G'] ['N', 'G'] ≤
          alignScore offMatrix (-1) (-1)
            [AStep.gapB, AStep.both, AStep.gapA] ['N', 'G'] ['N', 'G'])) = true ∧
    (mkArmAlignment offMatrix (-1) (-1) ['N', 'G'] ['N', 'G']
      [AStep.gapB, AStep.both, AStep.gapA]).score = 999998 ∧
    (['N', 'G'].map (fun c => offMatrix c c)).sum = 0 ∧
    ¬ (999998 : ℚ) = 0 := by
  decide

/-- **C3**, witness: the amended theorem applied to the identity alignment of
`NG` against itself under the identity matrix (`K = 1`) and gap penalties
`-5 = -(2*2*1 + 1)`. -/
theorem C3_witness :
    validSteps [AStep.both, AStep.both] 2 2 = true ∧
    ((allStepLists 4).all (fun st =>
      !(validSteps st 2 2) ||
        alignScore idMatrix (-5) (-5) st ['N', 'G'] ['N', 'G'] ≤
          alignScore idMatrix (-5) (-5)
            [AStep.both, AStep.both] ['N', 'G'] ['N', 'G'])) = true ∧
    ((mkArmAlignment idMatrix (-5) (-5) ['N', 'G'] ['N', 'G']
        [AStep.both, AStep.both]).adjusted_score =
      (mkArmAlignment idMatrix (-5) (-5) ['N', 'G'] ['N', 'G']
        [AStep.both, AStep.both]).score /
        (((mkArmAlignment idMatrix (-5) (-5) ['N', 'G'] ['N', 'G']
          [AStep.both, AStep.both]).seq1.length : ℕ) : ℚ) ∧
     (mkArmAlignment idMatrix (-5) (-5) ['N', 'G'] ['N', 'G']
        [AStep.both, AStep.both]).seq1_gaps =
      (mkArmAlignment idMatrix (-5) (-5) ['N', 'G'] ['N', 'G']
        [AStep.both, AStep.both]).seq1.count '-' ∧
     (mkArmAlignment idMatrix (-5) (-5) ['N', 'G'] ['N', 'G']
        [AStep.both, AStep.both]).seq2_gaps =
      (mkArmAlignment idMatrix (-5) (-5) ['N', 'G'] ['N', 'G']
        [AStep.both, AStep.both]).seq2.count '-' ∧
     (mkArmAlignment idMatrix (-5) (-5) ['N', 'G'] ['N', 'G']
        [AStep.both, AStep.both]).score =
      (['N', 'G'].map (fun c => idMatrix c c)).sum) :=
  ⟨by decide, by decide,
   C3_alignment_record idMatrix 1 (-5) (-5) ['N', 'G'] [AStep.both, AStep.both]
     (by decide)
     (optimal_of_allStepLists (by decide))
     (fun a b => by
       simp only [idMatrix]
       split <;> norm_num)
     (by norm_num) (by norm_num)⟩

/-- **C7**.  `Alignment.align`'s gap penalties default to `+10000` — a large
*positive* value.  Since `pairwise2` adds the penalty to the score, the
default rewards gaps: for the one-symbol arm `N` aligned against itself under
the identity matrix, the fully gapped alignment scores 20000 and strictly
beats the unique gapless alignment (score 1), so the top-scoring default-mode
alignment has gaps and aligned length 2 ≠ max(1, 1) — the default does not
force a gapless alignment as the claim, the spec and the source's own
docstring ("set at 10000 in order to enforce a gapless alignment") state. -/
theorem C7_default_gap_penalties :
    default_gap_open = 10000 ∧ default_gap_extend = 10000 ∧
    0 < default_gap_open ∧ 0 < default_gap_extend ∧
    validSteps [AStep.gapB, AStep.gapA] 1 1 = true ∧
    alignScore idMatrix default_gap_open default_gap_extend
      [AStep.gapB, AStep.gapA] ['N'] ['N'] = 20000 ∧
    alignScore idMatrix default_gap_open default_gap_extend
      [AStep.both] ['N'] ['N'] = 1 ∧
    (alignedSeqA [AStep.gapB, AStep.gapA] ['N']).length = 2 ∧
    ¬ (alignedSeqA [AStep.gapB, AStep.gapA] ['N']).count '-' = 0 ∧
    ¬ alignScore idMatrix default_gap_open default_gap_extend
        [AStep.gapB, AStep.gapA] ['N'] ['N'] ≤
      alignScore idMatrix default_gap_open default_gap_extend
        [AStep.both] ['N'] ['N'] := by
  decide

/-! ### C4, C6, C9: null-model calibration -/

lemma filter_ge_add_filter_lt (ns : List ℚ) (adj : ℚ) :
    (ns.filter (fun i => adj ≤ i)).length +
      (ns.filter (fun i => i < adj)).length = ns.length := by
  induction ns with
  | nil => simp
  | cons x r ih =>
    by_cases h : adj ≤ x
    · rw [List.filter_cons_of_pos (by simpa using h),
        List.filter_cons_of_neg (by simpa using not_lt.mpr h)]
      simp only [List.length_cons]
      omega
    · rw [List.filter_cons_of_neg (by simpa using h),
        List.filter_cons_of_pos (by simpa using lt_of_not_ge h)]
      simp only [List.length_cons]
      omega

lemma attach_probabilities_eq (ns : List ℚ) (adj : ℚ) (h : ¬ ns = []) :
    attach_probabilities (some ns) adj =
      Except.ok (some
        (((ns.filter (fun i => adj ≤ i)).length : ℚ) / (ns.length : ℚ),
         ((ns.filter (fun i => i < adj)).length : ℚ) / (ns.length : ℚ))) := by
  rw [attach_probabilities]
  rw [if_neg (by simpa using h)]

lemma calibration_sum_one (ns : List ℚ) (adj : ℚ) (h : ¬ ns = []) :
    ((ns.filter (fun i => adj ≤ i)).length : ℚ) / (ns.length : ℚ) +
      ((ns.filter (fun i => i < adj)).length : ℚ) / (ns.length : ℚ) = 1 := by
  have hlen : (ns.length : ℚ) ≠ 0 := by
    have : ns.length ≠ 0 := fun hh => h (List.eq_nil_of_length_eq_zero hh)
    exact_mod_cast this
  rw [div_add_div_same, div_eq_one_iff_eq hlen]
  exact_mod_cast filter_ge_add_filter_lt ns adj

/-- **C4**.  For a non-empty null-score list, the calibrator attaches
`match_proba = count(null >= adjusted) / count(null)` and
`mismatch_proba = count(null < adjusted) / count(null)`, and both
probabilities lie in `[0, 1]`. -/
theorem C4_calibrator_probabilities (ns : List ℚ) (adj : ℚ) (h : ¬ ns = []) :
    attach_probabilities (some ns) adj =
      Except.ok (some
        (((ns.filter (fun i => adj ≤ i)).length : ℚ) / (ns.length : ℚ),
         ((ns.filter (fun i => i < adj)).length : ℚ) / (ns.length : ℚ))) ∧
    (∀ m mm : ℚ, attach_probabilities (some ns) adj = Except.ok (some (m, mm)) →
      0 ≤ m ∧ m ≤ 1 ∧ 0 ≤ mm ∧ mm ≤ 1) := by
  have hlen : 0 < (ns.length : ℚ) := by
    have : ns.length ≠ 0 := fun hh => h (List.eq_nil_of_length_eq_zero hh)
    positivity
  refine ⟨attach_probabilities_eq ns adj h, ?_⟩
  intro m mm hok
  rw [attach_probabilities_eq ns adj h] at hok
  have hm : m = ((ns.filter (fun i => adj ≤ i)).length : ℚ) / (ns.length : ℚ) := by
    have := congrArg (fun e => match e with
      | Except.ok (some p) => p.1
      | _ => 0) hok
    simpa using this.symm
  have hmm : mm = ((ns.filter (fun i => i < adj)).length : ℚ) / (ns.length : ℚ) := by
    have := congrArg (fun e => match e with
      | Except.ok (some p) => p.2
      | _ => 0) hok
    simpa using this.symm
  have h1 : ((ns.filter (fun i => adj ≤ i)).length : ℚ) ≤ (ns.length : ℚ) := by
    exact_mod_cast List.length_filter_le _ ns
  have h2 : ((ns.filter (fun i => i < adj)).length : ℚ) ≤ (ns.length : ℚ) := by
    exact_mod_cast List.length_filter_le _ ns
  subst hm hmm
  refine ⟨by positivity, ?_, by positivity, ?_⟩
  · rw [div_le_one hlen]; exact h1
  · rw [div_le_one hlen]; exact h2

/-- **C4**, witness: the calibrator applied to the null list `[1, 2, 3]` and
adjusted score 2 (probabilities 2/3 and 1/3). -/
theorem C4_witness :
    ¬ ([1, 2, 3] : List ℚ) = [] ∧
    (attach_probabilities (some [1, 2, 3]) 2 =
      Except.ok (some
        (((([1, 2, 3] : List ℚ).filter (fun i => (2 : ℚ) ≤ i)).length : ℚ) /
           ((([1, 2, 3] : List ℚ)).length : ℚ),
         ((([1, 2, 3] : List ℚ).filter (fun i => i < (2 : ℚ))).length : ℚ) /
           ((([1, 2, 3] : List ℚ)).length : ℚ))) ∧
     (∀ m mm : ℚ,
        attach_probabilities (some [1, 2, 3]) 2 = Except.ok (some (m, mm)) →
        0 ≤ m ∧ m ≤ 1 ∧ 0 ≤ mm ∧ mm ≤ 1)) :=
  ⟨by decide, C4_calibrator_probabilities [1, 2, 3] 2 (by decide)⟩

/-- **C9** (amended).  For every non-empty null-score list the two attached
probabilities sum to exactly 1: the `>=` and `<` conditions partition the
list, and ties at equality are *included* in `match_proba` rather than
dropped — only floating-point rounding could make the Python sum differ from
1, not the tie-handling the claim cites. -/
theorem C9_probabilities_sum_to_one (ns : List ℚ) (adj : ℚ) (h : ¬ ns = []) :
    ∀ m mm : ℚ, attach_probabilities (some ns) adj = Except.ok (some (m, mm)) →
      m + mm = 1 := by
  intro m mm hok
  rw [attach_probabilities_eq ns adj h] at hok
  have hm : m = ((ns.filter (fun i => adj ≤ i)).length : ℚ) / (ns.length : ℚ) := by
    have := congrArg (fun e => match e with
      | Except.ok (some p) => p.1
      | _ => 0) hok
    simpa using this.symm
  have hmm : mm = ((ns.filter (fun i => i < adj)).length : ℚ) / (ns.length : ℚ) := by
    have := congrArg (fun e => match e with
      | Except.ok (some p) => p.2
      | _ => 0) hok
    simpa using this.symm
  subst hm hmm
  exact calibration_sum_one ns adj h

/-- **C9**, refutation of the claimed existence: no arm with a non-empty null
list and an adjusted score yields probabilities that do not sum to 1. -/
theorem C9_counterexample :
    ¬ ∃ (ns : List ℚ) (adj m mm : ℚ), ¬ ns = [] ∧
      attach_probabilities (some ns) adj = Except.ok (some (m, mm)) ∧
      ¬ m + mm = 1 := by
  rintro ⟨ns, adj, m, mm, hne, hok, hsum⟩
  apply hsum
  rw [attach_probabilities_eq ns adj hne] at hok
  have hm : m = ((ns.filter (fun i => adj ≤ i)).length : ℚ) / (ns.length : ℚ) := by
    have := congrArg (fun e => match e with
      | Except.ok (some p) => p.1
      | _ => 0) hok
    simpa using this.symm
  have hmm : mm = ((ns.filter (fun i => i < adj)).length : ℚ) / (ns.length : ℚ) := by
    have := congrArg (fun e => match e with
      | Except.ok (some p) => p.2
      | _ => 0) hok
    simpa using this.symm
  subst hm hmm
  exact calibration_sum_one ns adj hne

/-- **C9**, witness: the null list `[1, 1]` with adjusted score 1 — a tie at
equality — yields probabilities `(1, 0)`, which sum to 1. -/
theorem C9_witness :
    ¬ ([1, 1] : List ℚ) = [] ∧
    attach_probabilities (some [1, 1]) 1 = Except.ok (some (1, 0)) ∧
    (1 : ℚ) + 0 = 1 :=
  ⟨by decide, by rfl, C9_probabilities_sum_to_one [1, 1] 1 (by decide) 1 0 (by rfl)⟩

/-- **C6**, counterexample to the claim as stated: an empty per-arm null list
is *not* skipped — `bigger / len(null_scores[arm])` raises
`ZeroDivisionError`, so processing fails for that arm instead of producing a
record without probability fields. -/
theorem C6_counterexample :
    attach_probabilities (some []) 0 = Except.error "ZeroDivisionError" ∧
    ¬ attach_probabilities (some []) 0 = Except.ok none := by
  refine ⟨rfl, fun h => ?_⟩
  rw [attach_probabilities] at h
  exact Except.noConfusion (if_pos rfl ▸ h)

/-- **C6** (amended).  The probability computation is skipped only when the
whole `null_scores` mapping is `None`; a supplied-but-empty per-arm list
raises `ZeroDivisionError` (processing fails for that arm), while non-empty
lists produce the probability fields. -/
theorem C6_empty_null_scores (adjusted : ℚ) :
    attach_probabilities none adjusted = Except.ok none ∧
    attach_probabilities (some []) adjusted = Except.error "ZeroDivisionError" ∧
    (∀ ns : List ℚ, ¬ ns = [] → ∃ p : ℚ × ℚ,
      attach_probabilities (some ns) adjusted = Except.ok (some p)) := by
  refine ⟨rfl, rfl, ?_⟩
  intro ns h
  exact ⟨_, attach_probabilities_eq ns adjusted h⟩

/-- **C6**, witness: the amended theorem at adjusted score 2, with the
non-empty case instantiated at the null list `[1]`. -/
theorem C6_witness :
    attach_probabilities none 2 = Except.ok none ∧
    attach_probabilities (some []) 2 = Except.error "ZeroDivisionError" ∧
    ¬ ([1] : List ℚ) = [] ∧
    (∃ p : ℚ × ℚ, attach_probabilities (some [1]) 2 = Except.ok (some p)) :=
  ⟨(C6_empty_null_scores 2).1, (C6_empty_null_scores 2).2.1, by decide,
   (C6_empty_null_scores 2).2.2 [1] (by decide)⟩

/-! ### C5: symmetry of the substitution matrix -/

lemma occPairs_symm (pos : List Char) (a b : Char) :
    occPairs pos a b = occPairs pos b a := by
  rw [occPairs, occPairs, Finset.sum_comm]
  refine Finset.sum_congr rfl (fun i _ => Finset.sum_congr rfl (fun j _ => ?_))
  refine if_congr ⟨?_, ?_⟩ rfl rfl
  · rintro ⟨h1, h2, h3⟩
    exact ⟨h1.symm, h3, h2⟩
  · rintro ⟨h1, h2, h3⟩
    exact ⟨h1.symm, h3, h2⟩

lemma pair_counts_symm (positions : List (List Char)) (a b : Char) :
    pair_counts positions a b = pair_counts positions b a := by
  rw [pair_counts, pair_counts]
  congr 1
  exact congrArg List.sum (List.map_congr_left (fun pos _ => occPairs_symm pos a b))

lemma pair_probabilities_symm (positions : List (List Char)) (a b : Char) :
    pair_probabilities positions a b = pair_probabilities positions b a := by
  rw [pair_probabilities, pair_probabilities, pair_counts_symm]

lemma exp_pair_probabilities_symm (states : List Char)
    (positions : List (List Char)) (a b : Char) :
    exp_pair_probabilities states positions a b =
      exp_pair_probabilities states positions b a := by
  rw [exp_pair_probabilities, exp_pair_probabilities]
  by_cases h : a = b
  · rw [h]
  · rw [if_neg h, if_neg (fun hh => h hh.symm)]
    ring

/-- **C5**.  The substitution matrix produced by the builder is symmetric:
for every population of profiles (list of positions), every state pair and
every final transform `g` (the source instantiates `g = 2*log2`), the entry
at `(a, b)` equals the entry at `(b, a)` — ordered pair co-occurrences are
counted in both directions, so observed and expected probabilities are
symmetric. -/
theorem C5_blosum_symmetric (g : ℚ → ℝ) (states : List Char)
    (positions : List (List Char)) (a b : Char) :
    blosum_matrix g states positions a b = blosum_matrix g states positions b a := by
  rw [blosum_matrix, blosum_matrix, pair_probabilities_symm,
    exp_pair_probabilities_symm]

/-! ### C8: bin assignment of the Segment Model -/

lemma filter_eq_find_toList {α : Type} (p : α → Bool) (l : List α)
    (h : (l.filter p).length ≤ 1) : l.filter p = (l.find? p).toList := by
  induction l with
  | nil => simp
  | cons x r ih =>
    by_cases hp : p x = true
    · rw [List.filter_cons_of_pos hp] at h ⊢
      rw [List.find?_cons_of_pos _ hp]
      have : r.filter p = [] := by
        simp only [List.length_cons] at h
        exact List.length_eq_zero.mp (by omega)
      rw [this]
      rfl
    · rw [List.filter_cons_of_neg (by simpa using hp)] at h ⊢
      rw [List.find?_cons_of_neg _ (by simpa using hp)]
      exact ih h

lemma scanIntervals_eq (chrom : String) (bs i : ℤ) (cnvs : List SegInterval) :
    scanIntervals chrom bs i cnvs =
      ((cnvs.filter (fun j => decide (j.locStart ≤ i ∧ i ≤ j.locEnd))).map
        (fun j => (⟨chrom, i, i + bs, j.state.toList.headD '?'⟩ : BinRec)),
       cnvs.any (fun j => decide (j.locStart ≤ i ∧ i ≤ j.locEnd))) := by
  induction cnvs with
  | nil => rfl
  | cons j rest ih =>
    rw [scanIntervals, ih]
    by_cases h : j.locStart ≤ i ∧ i ≤ j.locEnd
    · rw [if_pos h, List.filter_cons_of_pos (by simpa using h)]
      simp [h]
    · rw [if_neg h, List.filter_cons_of_neg (by simpa using h)]
      simp [h]

lemma armFold_eq (chrom : String) (bs : ℤ) (cnvs : List SegInterval) :
    ∀ L : List ℤ,
      ((L.map (fun i =>
          let r := scanIntervals chrom bs i cnvs
          (r.1, if r.2 then [] else [chrom ++ "_" ++ toString i]))).foldr
        (fun p acc => (p.1 ++ acc.1, p.2 ++ acc.2)) ([], [])) =
      ((L.map (fun i =>
          (cnvs.filter (fun j => decide (j.locStart ≤ i ∧ i ≤ j.locEnd))).map
            (fun j => (⟨chrom, i, i + bs, j.state.toList.headD '?'⟩ : BinRec)))).flatten,
       (L.filter (fun i =>
          !cnvs.any (fun j => decide (j.locStart ≤ i ∧ i ≤ j.locEnd)))).map
         (fun i => chrom ++ "_" ++ toString i)) := by
  intro L
  induction L with
  | nil => rfl
  | cons i rest ih =>
    simp only [List.map_cons, List.foldr_cons]
    rw [ih, scanIntervals_eq]
    by_cases h : cnvs.any (fun j => decide (j.locStart ≤ i ∧ i ≤ j.locEnd)) = true
    · rw [List.filter_cons_of_neg (by simpa using h), if_pos h]
      simp [List.flatten_cons]
    · rw [List.filter_cons_of_pos (by simpa using h), if_neg h]
      simp [List.flatten_cons]

lemma armInit_eq (chrom : String) (bs s e : ℤ) (cnvs : List SegInterval) :
    armInit chrom bs s e cnvs =
      (((pyRange s e bs).map (fun i =>
          (cnvs.filter (fun j => decide (j.locStart ≤ i ∧ i ≤ j.locEnd))).map
            (fun j => (⟨chrom, i, i + bs, j.state.toList.headD '?'⟩ : BinRec)))).flatten,
       ((pyRange s e bs).filter (fun i =>
          !cnvs.any (fun j => decide (j.locStart ≤ i ∧ i ≤ j.locEnd)))).map
         (fun i => chrom ++ "_" ++ toString i)) := by
  rw [armInit]
  exact armFold_eq chrom bs cnvs (pyRange s e bs)

/-- **C8** (amended).  `Arm.__init__` emits, at every bin position, one `Bin`
per interval whose inclusive range `interval.start <= i <= interval.end`
covers the position (the scan does not stop at the first match), each bin
carrying that interval's state, in table order; positions covered by no
interval emit nothing and are only collected for the warning.  Exactly one
bin per covered position — with the state of the *first* covering interval
(`find?`) — is emitted precisely when at most one interval covers each
position. -/
theorem C8_arm_bin_assignment (chrom : String) (bs s e : ℤ)
    (cnvs : List SegInterval) :
    (armInit chrom bs s e cnvs =
      (((pyRange s e bs).map (fun i =>
          (cnvs.filter (fun j => decide (j.locStart ≤ i ∧ i ≤ j.locEnd))).map
            (fun j => (⟨chrom, i, i + bs, j.state.toList.headD '?'⟩ : BinRec)))).flatten,
       ((pyRange s e bs).filter (fun i =>
          !cnvs.any (fun j => decide (j.locStart ≤ i ∧ i ≤ j.locEnd)))).map
         (fun i => chrom ++ "_" ++ toString i))) ∧
    ((∀ i ∈ pyRange s e bs,
        (cnvs.filter (fun j => decide (j.locStart ≤ i ∧ i ≤ j.locEnd))).length ≤ 1) →
      (armInit chrom bs s e cnvs).1 =
        ((pyRange s e bs).map (fun i =>
          (cnvs.find? (fun j => decide (j.locStart ≤ i ∧ i ≤ j.locEnd))).toList.map
            (fun j => (⟨chrom, i, i + bs, j.state.toList.headD '?'⟩ : BinRec)))).flatten) := by
  refine ⟨armInit_eq chrom bs s e cnvs, ?_⟩
  intro h
  rw [armInit_eq]
  show (((pyRange s e bs).map _).flatten : List BinRec) = _
  congr 1
  apply List.map_congr_left
  intro i hi
  rw [filter_eq_find_toList _ _ (h i hi)]

/-- **C8**, counterexample to the claim as stated: two overlapping intervals
(`N` and `G`, both covering position 0) make `Arm.__init__` emit *two* bins
for the single covered position — not exactly one bin with the first
interval's state. -/
theorem C8_counterexample :
    armInit "chr01p" 1 0 1 [⟨0, 10, "N"⟩, ⟨0, 10, "G"⟩] =
      ([⟨"chr01p", 0, 1, 'N'⟩, ⟨"chr01p", 0, 1, 'G'⟩], []) ∧
    pyRange 0 1 1 = [0] ∧
    ¬ (([(⟨"chr01p", 0, 1, 'N'⟩ : BinRec), ⟨"chr01p", 0, 1, 'G'⟩]).length = 1) := by
  decide

/-- **C8**, witness: the amended theorem on a non-overlapping table over
positions 0–3, where position 3 is uncovered and only reported. -/
theorem C8_witness :
    (∀ i ∈ pyRange 0 4 1,
      (([⟨0, 0, "N"⟩, ⟨1, 2, "G"⟩] : List SegInterval).filter
        (fun j => decide (j.locStart ≤ i ∧ i ≤ j.locEnd))).length ≤ 1) ∧
    ((armInit "chr01p" 1 0 4 [⟨0, 0, "N"⟩, ⟨1, 2, "G"⟩] =
      (((pyRange 0 4 1).map (fun i =>
          (([⟨0, 0, "N"⟩, ⟨1, 2, "G"⟩] : List SegInterval).filter
            (fun j => decide (j.locStart ≤ i ∧ i ≤ j.locEnd))).map
            (fun j => (⟨"chr01p", i, i + 1, j.state.toList.headD '?'⟩ : BinRec)))).flatten,
       ((pyRange 0 4 1).filter (fun i =>
          !([⟨0, 0, "N"⟩, ⟨1, 2, "G"⟩] : List SegInterval).any
            (fun j => decide (j.locStart ≤ i ∧ i ≤ j.locEnd)))).map
         (fun i => "chr01p" ++ "_" ++ toString i))) ∧
     ((∀ i ∈ pyRange 0 4 1,
        (([⟨0, 0, "N"⟩, ⟨1, 2, "G"⟩] : List SegInterval).filter
          (fun j => decide (j.locStart ≤ i ∧ i ≤ j.locEnd))).length ≤ 1) →
      (armInit "chr01p" 1 0 4 [⟨0, 0, "N"⟩, ⟨1, 2, "G"⟩]).1 =
        ((pyRange 0 4 1).map (fun i =>
          (([⟨0, 0, "N"⟩, ⟨1, 2, "G"⟩] : List SegInterval).find?
            (fun j => decide (j.locStart ≤ i ∧ i ≤ j.locEnd))).toList.map
            (fun j => (⟨"chr01p", i, i + 1, j.state.toList.headD '?'⟩ : BinRec)))).flatten)) :=
  ⟨by decide, C8_arm_bin_assignment "chr01p" 1 0 4 [⟨0, 0, "N"⟩, ⟨1, 2, "G"⟩]⟩

/-! ### C10: check_proba_similarity ignores its second argument -/

/-- **C10**.  `check_proba_similarity` compares a value list built from its
first record with a value list built from the *same* first record (the
second record is never read), so it returns `True` on every input and its
result is independent of the second argument — consecutive probability-vector
bins are therefore always judged to belong to the same run-length segment. -/
theorem C10_check_proba_similarity_constant (proba_cols : List String)
    (dictionary1 dict2a dict2b : List (String × ℚ)) :
    check_proba_similarity proba_cols dictionary1 dict2a = true ∧
    check_proba_similarity proba_cols dictionary1 dict2a =
      check_proba_similarity proba_cols dictionary1 dict2b := by
  constructor
  · rw [check_proba_similarity]
    simp
  · rfl
